import Mathlib

/-!
Shallow embedding of `src/resourceez/api_object.py` (the `resourceez` repository).

Python runtime values relevant to the module are modelled by `Value`:
the JSON-like shapes (`None`, `bool`, numbers, `str`, `list`, `dict`),
`ApiObject` instances (`vinst`), `Enum` members (`venum`, carrying their
`.value`), and opaque non-JSON objects such as byte blobs (`vblob`).
Numbers are modelled by `Int`; the engine never inspects or transforms
numeric payloads, so the choice of carrier is irrelevant to every claim.

A resource type (an `ApiObject` subclass) is identified by its name.  An
`Env` records, per class, its optional own `sub_resources` dict and its
field annotations, plus the base class `ApiObject`'s `sub_resources`
dict (which subclasses that declare none of their own resolve to via
Python attribute lookup).
-/

namespace Resourceez

/-- Python runtime values as seen by `api_object.py`. -/
inductive Value where
  | vnull
  | vbool (b : Bool)
  | vnum (n : Int)
  | vstr (s : String)
  | varr (elems : List Value)
  | vobj (fields : List (String × Value))
  | vinst (tname : String) (attrs : List (String × Value))
  | venum (n : Int)
  | vblob (id : Nat)
deriving Repr

/-- Failure modes of the engine.  `typeConstraint` is the `TypeError`
raised explicitly by `ApiObject.parse` when its argument is not one of
`JsonType.__args__` (the spec calls it `TypeConstraintError`);
`notIterable` is the runtime `TypeError` produced by iterating a
non-iterable inside `parse_collection`'s comprehension. -/
inductive Err where
  | typeConstraint
  | notIterable
deriving DecidableEq, Repr

/-- Sub-constructor functions storable in a `sub_resources` dict, as the
module itself produces them: `_trivial_constructor` (the identity),
`T.parse`, or `T.parse_collection` for a resource type `T`. -/
inductive Ctor where
  | identity
  | parseOf (tname : String)
  | parseCollOf (tname : String)
deriving DecidableEq, Repr

/-- Primitive type objects, the members of `Primitive.__args__`
(`str`, `int`, `float`, `bool`, `NoneType`). -/
inductive PrimTy where
  | pstr
  | pint
  | pfloat
  | pbool
  | pnone
deriving DecidableEq, Repr

/-- Field type annotations, as `from_annotations` distinguishes them: a
primitive type, `List[p]` for a primitive `p`, `List[R]` for a resource
type `R`, `Optional[p]` for a primitive `p`, and a resource type `R`
itself. -/
inductive Ann where
  | prim (p : PrimTy)
  | listPrim (p : PrimTy)
  | listRes (tname : String)
  | optPrim (p : PrimTy)
  | resource (tname : String)
deriving DecidableEq, Repr

/-- One `ApiObject` subclass: its own `sub_resources` class dict when it
declares one (`none` means it inherits the base class's), and its
`__annotations__`. -/
structure TypeDef where
  ownSubs : Option (List (String × Ctor))
  anns : List (String × Ann)
deriving Repr

/-- The class environment: the base `ApiObject.sub_resources` dict and
the declared subclasses, keyed by name. -/
structure Env where
  baseSubs : List (String × Ctor)
  types : List (String × TypeDef)
deriving Repr

/-- Look up a subclass definition by name; unknown names behave as a
bare subclass (no own dict, no annotations). -/
def Env.typeDef (env : Env) (tname : String) : TypeDef :=
  match env.types.find? (fun td => td.1 == tname) with
  | some td => td.2
  | none => ⟨none, []⟩

/-- The dict that the expression `cls.sub_resources` resolves to for the
class named `tname`: the class's own dict when it declares one, else the
base class's dict, by Python attribute lookup. -/
def Env.subsOf (env : Env) (tname : String) : List (String × Ctor) :=
  match (env.typeDef tname).ownSubs with
  | some own => own
  | none => env.baseSubs

/-- The function `_trivial_constructor`: returns its argument. -/
def trivialConstructor (raw : Value) : Value := raw

/-- The method `ApiObject._get_subresource_constructor`:
`cls.sub_resources.get(key, _trivial_constructor)`, an exact-key lookup
falling back to the identity. -/
def getSubresourceConstructor (subs : List (String × Ctor)) (key : String) : Ctor :=
  match subs.find? (fun kv => kv.1 == key) with
  | some kv => kv.2
  | none => Ctor.identity

mutual
/-- The classmethod `ApiObject.parse`.  Dispatch on the argument:
values outside `JsonType.__args__` (instances, enums, blobs) hit the
explicit `raise TypeError`; primitives are returned unchanged; a list is
delegated to `parse_collection` (whose element loop is `parseList`
below, inlined here so that the recursion is structural); a dict becomes
an instance of `cls` whose `__dict__` holds, for each key, the result of
the resolved sub-constructor applied to the value. -/
def parse (env : Env) (tname : String) : Value → Except Err Value
  | .vnull => .ok .vnull
  | .vbool b => .ok (.vbool b)
  | .vnum n => .ok (.vnum n)
  | .vstr s => .ok (.vstr s)
  | .varr elems => do
      let parsed ← parseList env tname elems
      pure (.varr parsed)
  | .vobj fields => do
      let attrs ← parseFields env tname fields
      pure (.vinst tname attrs)
  | .vinst _ _ => .error .typeConstraint
  | .venum _ => .error .typeConstraint
  | .vblob _ => .error .typeConstraint

/-- The comprehension `[cls.parse(item) for item in collection]` over a
Python list, propagating the first raised error. -/
def parseList (env : Env) (tname : String) : List Value → Except Err (List Value)
  | [] => .ok []
  | item :: rest => do
      let hd ← parse env tname item
      let tl ← parseList env tname rest
      pure (hd :: tl)

/-- The loop in `ApiObject.parse`'s dict branch: each `(key, value)`
pair is mapped to `(key, constructor(value))` where the constructor is
resolved by `_get_subresource_constructor`.  The constructor dispatch is
inlined (rather than calling `applyCtor`) so that the mutual recursion
is structural; `parseFields_eq_applyCtor` below restates it via
`applyCtor`. -/
def parseFields (env : Env) (tname : String) :
    List (String × Value) → Except Err (List (String × Value))
  | [] => .ok []
  | (key, value) :: rest => do
      let parsed ←
        match getSubresourceConstructor (env.subsOf tname) key with
        | .identity => .ok (trivialConstructor value)
        | .parseOf t => parse env t value
        | .parseCollOf t => parseCollection env t value
      let tl ← parseFields env tname rest
      pure ((key, parsed) :: tl)

/-- The classmethod `ApiObject.parse_collection`, iterating its argument
the way Python's `for item in collection` does: a list yields its
elements; a string yields its characters, each a one-character string
that `parse` returns unchanged (written directly, as the recursion
would not be structural); a dict yields its keys, strings that `parse`
likewise returns unchanged; every other value raises `TypeError`
(not iterable). -/
def parseCollection (env : Env) (tname : String) : Value → Except Err Value
  | .varr elems => do
      let parsed ← parseList env tname elems
      pure (.varr parsed)
  | .vstr s => .ok (.varr (s.toList.map (fun c => .vstr c.toString)))
  | .vobj fields => .ok (.varr (fields.map (fun kv => .vstr kv.1)))
  | _ => .error .notIterable
end

/-- Application of a stored sub-constructor function to a value. -/
def applyCtor (env : Env) : Ctor → Value → Except Err Value
  | .identity, v => .ok (trivialConstructor v)
  | .parseOf t, v => parse env t v
  | .parseCollOf t, v => parseCollection env t v

mutual
/-- The loop body of the `raw` property over `self.__dict__`: each
attribute value is serialized by the four-way branch `rawAttr`. -/
def rawFields : List (String × Value) → List (String × Value)
  | [] => []
  | (key, value) :: rest => (key, rawAttr value) :: rawFields rest

/-- One attribute in `ApiObject.raw`: an `ApiObject` instance becomes
its `raw` dict, a list goes through `_collection_to_raw`, an `Enum`
member is unwrapped to its `.value`, anything else passes through. -/
def rawAttr : Value → Value
  | .vinst _ attrs => .vobj (rawFields attrs)
  | .varr elems => .varr (collectionToRaw elems)
  | .venum n => .vnum n
  | v => v

/-- The staticmethod `ApiObject._collection_to_raw`: elementwise
application of the three-way rule, preserving length and order. -/
def collectionToRaw : List Value → List Value
  | [] => []
  | item :: rest => collectionItemToRaw item :: collectionToRaw rest

/-- One element of `_collection_to_raw`'s loop: an instance becomes its
`raw` dict, a nested list recurses, anything else (including an `Enum`
member, which this loop does not unwrap) passes through. -/
def collectionItemToRaw : Value → Value
  | .vinst _ attrs => .vobj (rawFields attrs)
  | .varr elems => .varr (collectionToRaw elems)
  | v => v
end

/-- The `raw` property, defined on `ApiObject` instances only. -/
def raw : Value → Option Value
  | .vinst _ attrs => some (.vobj (rawFields attrs))
  | _ => none

/-- Test for `isinstance(raw, JsonType.__args__)`, the membership check
guarding `ApiObject.parse`: true exactly for the six JSON shapes
(`None`, `bool`, number, `str`, `list`, `dict`). -/
def isPermittedShape : Value → Bool
  | .vnull => true
  | .vbool _ => true
  | .vnum _ => true
  | .vstr _ => true
  | .varr _ => true
  | .vobj _ => true
  | _ => false

/-- Distinctness of the keys of an association list, as holds for every
Python `dict`. -/
def keysNodup (fields : List (String × Value)) : Bool :=
  decide (fields.map Prod.fst).Nodup

mutual
/-- Recursive JSON-likeness: the value is built from the six permitted
shapes only, and every mapping in it has distinct keys (as every Python
`dict` produced by a JSON decoder does). -/
def isJsonLike : Value → Bool
  | .vnull => true
  | .vbool _ => true
  | .vnum _ => true
  | .vstr _ => true
  | .varr elems => isJsonLikeList elems
  | .vobj fields => keysNodup fields && isJsonLikeFields fields
  | _ => false

/-- JSON-likeness of every element of a list. -/
def isJsonLikeList : List Value → Bool
  | [] => true
  | item :: rest => isJsonLike item && isJsonLikeList rest

/-- JSON-likeness of every value of an association list. -/
def isJsonLikeFields : List (String × Value) → Bool
  | [] => true
  | kv :: rest => isJsonLike kv.2 && isJsonLikeFields rest
end

mutual
/-- The spec's side condition on the round-trip law, that a JSON-like
value's "nested shapes match T's declared sub-constructors": primitives
always conform; a list conforms when each element does (parse maps the
same type over elements); a mapping conforms when its keys are distinct
and each value fits the sub-constructor resolved for its key — a value
under the identity constructor must merely be JSON-like, a value under
`T2.parse` must conform to `T2`, and a value under
`T2.parse_collection` must be a list of values conforming to `T2`.
Instances, enums and non-JSON objects are not JSON-like and never
conform. -/
def conforms (env : Env) (tname : String) : Value → Bool
  | .vnull => true
  | .vbool _ => true
  | .vnum _ => true
  | .vstr _ => true
  | .varr elems => conformsList env tname elems
  | .vobj fields => keysNodup fields && conformsFields env tname fields
  | _ => false
termination_by v => (sizeOf v, 0)

/-- Conformance of every element of a list to one type. -/
def conformsList (env : Env) (tname : String) : List Value → Bool
  | [] => true
  | item :: rest => conforms env tname item && conformsList env tname rest
termination_by elems => (sizeOf elems, 0)

/-- Conformance of each mapping entry to the sub-constructor resolved
for its key. -/
def conformsFields (env : Env) (tname : String) : List (String × Value) → Bool
  | [] => true
  | (key, value) :: rest =>
      conformsCtor env (getSubresourceConstructor (env.subsOf tname) key) value
      && conformsFields env tname rest
termination_by fields => (sizeOf fields, 0)

/-- Conformance of one value to one sub-constructor. -/
def conformsCtor (env : Env) : Ctor → Value → Bool
  | .identity, v => isJsonLike v
  | .parseOf t, v => conforms env t v
  | .parseCollOf t, .varr elems => conformsList env t elems
  | .parseCollOf _, _ => false
termination_by _ v => (sizeOf v, 1)
end

/-- The constructor that one iteration of `from_annotations`'s loop
registers for a field, `none` meaning the branch taken registers
nothing.  Branch order as in the source: a primitive annotation is
skipped; a `typing` alias whose first argument is primitive is skipped —
this branch catches `List[p]` and also `Optional[p]`, since
`Optional[p]` is an instance of `type(List[Any])`
(`typing._UnionGenericAlias` subclasses `typing._GenericAlias`) with
`__args__[0] = p`, so the later `Optional` branch (which would register
the coercing primitive type itself) is never reached for it; a
`List[R]` alias with `R` an `ApiObject` subclass registers `R.parse`;
a bare resource annotation `R` (whose no-argument instantiation is an
`ApiObject`) registers `R.parse`. -/
def annCtor : Ann → Option Ctor
  | .prim _ => none
  | .listPrim _ => none
  | .listRes tname => some (.parseOf tname)
  | .optPrim _ => none
  | .resource tname => some (.parseOf tname)

/-- Python dict assignment `d[key] = c`: overwrite in place when the key
is present (keeping its position), else append. -/
def setKey (subs : List (String × Ctor)) (key : String) (c : Ctor) :
    List (String × Ctor) :=
  if subs.any (fun kv => kv.1 == key) then
    subs.map (fun kv => if kv.1 == key then (kv.1, c) else kv)
  else
    subs ++ [(key, c)]

/-- The loop of `from_annotations` over the annotation dict, performing
each registration on the dict object that `cls.sub_resources` resolves
to. -/
def registerAll (subs : List (String × Ctor)) :
    List (String × Ann) → List (String × Ctor)
  | [] => subs
  | (name, ann) :: rest =>
      registerAll
        (match annCtor ann with
         | some c => setKey subs name c
         | none => subs)
        rest

/-- Replacement of the own `sub_resources` dict of the class named
`tname`. -/
def Env.setOwnSubs (env : Env) (tname : String)
    (subs : List (String × Ctor)) : Env :=
  ⟨env.baseSubs,
   env.types.map (fun td =>
     if td.1 == tname then (td.1, ⟨some subs, td.2.anns⟩) else td)⟩

/-- The decorator `from_annotations` applied to the class named `tname`.
Every registration `cls.sub_resources[name] = ...` mutates the dict
object that attribute lookup resolves: the class's own dict when it
declares one, otherwise the base class `ApiObject`'s shared dict. -/
def fromAnnotations (env : Env) (tname : String) : Env :=
  let td := env.typeDef tname
  match td.ownSubs with
  | some own => env.setOwnSubs tname (registerAll own td.anns)
  | none => ⟨registerAll env.baseSubs td.anns, env.types⟩

/-- Access to `instance.__dict__`; only reached on instances. -/
def instAttrs : Value → List (String × Value)
  | .vinst _ attrs => attrs
  | _ => []

/-- The constructor call `T(**kwargs)`: `__init__` does nothing when
`kwargs` is empty, else it sets `self.__dict__` to the `__dict__` of
`self.parse(kwargs)` — `parse` applied to the non-empty dict of keyword
arguments — propagating any error `parse` raises. -/
def initKwargs (env : Env) (tname : String)
    (kwargs : List (String × Value)) : Except Err (List (String × Value)) :=
  if kwargs.isEmpty then .ok []
  else (parse env tname (.vobj kwargs)).map instAttrs

/-- A small concrete class environment for concrete evaluations: `T`
declares a sub-resource field `child` parsed by `C.parse` and a
collection field `kids` parsed by `C.parse_collection`; `C` declares an
empty `sub_resources` dict of its own. -/
def sampleEnv : Env :=
  ⟨[], [("T", ⟨some [("child", .parseOf "C"), ("kids", .parseCollOf "C")], []⟩),
        ("C", ⟨some [], []⟩)]⟩

/-- Concrete environment for the annotation-inference claims: `T`
declares its own empty `sub_resources` dict and one field `f` annotated
`List[R]`. -/
def annEnv : Env :=
  ⟨[], [("T", ⟨some [], [("f", .listRes "R")]⟩), ("R", ⟨some [], []⟩)]⟩

/-- Concrete environment for the frame-property claim: `T1` and `T2`
declare no `sub_resources` dict of their own (so both resolve the base
class's shared dict); `T1` has one field `f` annotated with the
resource type `R`. -/
def leakEnv : Env :=
  ⟨[], [("T1", ⟨none, [("f", Ann.resource "R")]⟩),
        ("T2", ⟨none, []⟩),
        ("R", ⟨some [], []⟩)]⟩

/-- Concrete environment for the optional-primitive claim: `T`
declares its own empty `sub_resources` dict and one field `f`
annotated `Optional[int]`. -/
def optEnv : Env := ⟨[], [("T", ⟨some [], [("f", Ann.optPrim .pint)]⟩)]⟩

/- ------------------------------------------------------------------
Theorems.
------------------------------------------------------------------ -/

theorem errBind {α β : Type} (e : Err) (f : α → Except Err β) :
    (Except.error e : Except Err α) >>= f = .error e := rfl

theorem okBind {α β : Type} (a : α) (f : α → Except Err β) :
    (Except.ok a : Except Err α) >>= f = f a := rfl

theorem mapErr {α β : Type} (e : Err) (f : α → β) :
    f <$> (Except.error e : Except Err α) = .error e := rfl

theorem mapOk {α β : Type} (a : α) (f : α → β) :
    f <$> (Except.ok a : Except Err α) = .ok (f a) := rfl

theorem parseList_eq_mapM (env : Env) (tname : String) (elems : List Value) :
    parseList env tname elems = elems.mapM (parse env tname) := by
  induction elems with
  | nil => rfl
  | cons item rest ih => simp only [parseList, List.mapM_cons, ih]

theorem parse_varr (env : Env) (tname : String) (elems : List Value) :
    parse env tname (.varr elems) = Value.varr <$> elems.mapM (parse env tname) := by
  simp only [parse, parseList_eq_mapM, bind_pure_comp]

theorem parseCollection_varr (env : Env) (tname : String) (elems : List Value) :
    parseCollection env tname (.varr elems)
      = Value.varr <$> elems.mapM (parse env tname) := by
  simp only [parseCollection, parseList_eq_mapM, bind_pure_comp]

theorem parseFields_cons (env : Env) (tname : String) (key : String)
    (value : Value) (rest : List (String × Value)) :
    parseFields env tname ((key, value) :: rest)
      = (do
          let parsed ← applyCtor env (getSubresourceConstructor (env.subsOf tname) key) value
          let tl ← parseFields env tname rest
          pure ((key, parsed) :: tl)) := by
  cases h : getSubresourceConstructor (env.subsOf tname) key <;>
    simp only [parseFields, applyCtor, h, trivialConstructor]

theorem parseFields_eq_mapM (env : Env) (tname : String)
    (fields : List (String × Value)) :
    parseFields env tname fields
      = fields.mapM (fun kv =>
          (fun r => (kv.1, r)) <$>
            applyCtor env (getSubresourceConstructor (env.subsOf tname) kv.1) kv.2) := by
  induction fields with
  | nil => rfl
  | cons kv rest ih =>
      obtain ⟨key, value⟩ := kv
      rw [parseFields_cons, List.mapM_cons, ih]
      cases applyCtor env (getSubresourceConstructor (env.subsOf tname) key) value <;> rfl

theorem parse_vobj (env : Env) (tname : String) (fields : List (String × Value)) :
    parse env tname (.vobj fields)
      = Value.vinst tname <$> parseFields env tname fields := by
  simp only [parse, bind_pure_comp]

theorem parseFields_keys (env : Env) (tname : String) :
    ∀ (fields : List (String × Value)) (attrs : List (String × Value)),
      parseFields env tname fields = .ok attrs →
      attrs.map Prod.fst = fields.map Prod.fst := by
  intro fields
  induction fields with
  | nil => intro attrs h; simp [parseFields] at h; simp [← h]
  | cons kv rest ih =>
      obtain ⟨key, value⟩ := kv
      intro attrs h
      rw [parseFields_cons] at h
      cases hc : applyCtor env (getSubresourceConstructor (env.subsOf tname) key) value with
      | error e => simp [hc, errBind] at h
      | ok parsed =>
          cases ht : parseFields env tname rest with
          | error e => simp [hc, ht, errBind, okBind, mapErr] at h
          | ok tl =>
              simp [hc, ht, errBind, okBind, mapOk] at h
              simp [← h, ih tl ht]

/-- C2: parsing a mapping yields an instance of the invoked type whose
attribute list pairs each key of the mapping, in order, with the result
of the sub-constructor resolved for that key (registered constructor on
exact match, identity otherwise) applied to the key's value; in
particular the attribute names of any successfully parsed instance are
exactly the keys of the input mapping. -/
theorem claim2_parse_mapping_attributes (env : Env) (tname : String)
    (fields : List (String × Value)) :
    parse env tname (.vobj fields)
      = Value.vinst tname <$> fields.mapM (fun kv =>
          (fun r => (kv.1, r)) <$>
            applyCtor env (getSubresourceConstructor (env.subsOf tname) kv.1) kv.2)
    ∧ ∀ tn attrs, parse env tname (.vobj fields) = .ok (.vinst tn attrs) →
        tn = tname ∧ attrs.map Prod.fst = fields.map Prod.fst := by
  constructor
  · rw [parse_vobj, parseFields_eq_mapM]
  · intro tn attrs h
    rw [parse_vobj] at h
    cases hf : parseFields env tname fields with
    | error e => simp [hf] at h
    | ok attrs2 =>
        simp [hf] at h
        obtain ⟨h1, h2⟩ := h
        exact ⟨h1.symm, h2 ▸ parseFields_keys env tname fields attrs2 hf⟩

/-- Witness for C2 at a concrete environment and mapping. -/
theorem claim2_witness :
    (parse sampleEnv "T" (.vobj [("a", .vnum 1)])
      = Value.vinst "T" <$> [(("a" : String), Value.vnum 1)].mapM (fun kv =>
          (fun r => (kv.1, r)) <$>
            applyCtor sampleEnv (getSubresourceConstructor (sampleEnv.subsOf "T") kv.1) kv.2))
    ∧ ("T" = "T"
      ∧ [(("a" : String), Value.vnum 1)].map Prod.fst
          = [(("a" : String), Value.vnum 1)].map Prod.fst) :=
  ⟨(claim2_parse_mapping_attributes sampleEnv "T" [("a", .vnum 1)]).1,
   (claim2_parse_mapping_attributes sampleEnv "T" [("a", .vnum 1)]).2
     "T" [("a", .vnum 1)] (by rfl)⟩

/-- C5: on a sequence, `parse`, `parse_collection`, and the elementwise
map of `parse` over the sequence all agree: each equals the ordered,
length-preserving elementwise parse with the same type for every
element. -/
theorem claim5_collection_parsing_equivalence (env : Env) (tname : String)
    (elems : List Value) :
    parse env tname (.varr elems) = Value.varr <$> elems.mapM (parse env tname)
    ∧ parseCollection env tname (.varr elems)
        = Value.varr <$> elems.mapM (parse env tname)
    ∧ parse env tname (.varr elems) = parseCollection env tname (.varr elems) := by
  refine ⟨parse_varr env tname elems, parseCollection_varr env tname elems, ?_⟩
  rw [parse_varr, parseCollection_varr]

theorem collectionToRaw_eq_map (elems : List Value) :
    collectionToRaw elems = elems.map collectionItemToRaw := by
  induction elems with
  | nil => rfl
  | cons item rest ih => simp only [collectionToRaw, List.map_cons, ih]

theorem collectionToRaw_insts (tname : String)
    (attrsList : List (List (String × Value))) :
    collectionToRaw (attrsList.map (Value.vinst tname))
      = attrsList.map (fun attrs => Value.vobj (rawFields attrs)) := by
  induction attrsList with
  | nil => rfl
  | cons attrs rest ih =>
      simp only [List.map_cons, collectionToRaw, collectionItemToRaw, ih]

/-- C6: `_collection_to_raw` returns a new sequence of the same length
and order in which each element has the three-way rule applied
(instance becomes its raw mapping, nested sequence recurses, any other
value passes through unchanged); and a sequence of sequences of
resource instances serializes to the identical nested shape of raw
mappings, preserving order at both levels. -/
theorem claim6_collection_to_raw (elems : List Value) :
    (collectionToRaw elems).length = elems.length
    ∧ (∀ i, i < elems.length →
        (collectionToRaw elems).getD i .vnull =
          (match elems.getD i .vnull with
           | .vinst _ attrs => .vobj (rawFields attrs)
           | .varr xs => .varr (collectionToRaw xs)
           | v => v))
    ∧ ∀ (tname : String) (rows : List (List (List (String × Value)))),
        collectionToRaw (rows.map (fun row => Value.varr (row.map (Value.vinst tname))))
          = rows.map (fun row =>
              Value.varr (row.map (fun attrs => Value.vobj (rawFields attrs)))) := by
  refine ⟨by rw [collectionToRaw_eq_map]; exact List.length_map elems collectionItemToRaw,
    ?_, ?_⟩
  · intro i hi
    rw [collectionToRaw_eq_map]
    simp only [List.getD_eq_getElem?_getD, List.getElem?_map,
      List.getElem?_eq_getElem hi]
    cases elems[i] <;> rfl
  · intro tname rows
    induction rows with
    | nil => rfl
    | cons row rest ih =>
        simp only [List.map_cons, collectionToRaw, collectionItemToRaw, ih,
          collectionToRaw_insts]

/-- Witness for C6 at a concrete three-element sequence holding an
instance, a nested sequence of instances, and a primitive. -/
theorem claim6_witness :
    (collectionToRaw [.vinst "T" [("a", .vnum 1)], .varr [.vinst "C" []], .vnum 7]).length
        = ([.vinst "T" [("a", .vnum 1)], .varr [.vinst "C" []], .vnum 7] : List Value).length
    ∧ (collectionToRaw [.vinst "T" [("a", .vnum 1)], .varr [.vinst "C" []], .vnum 7]).getD 1 .vnull
        = (match ([.vinst "T" [("a", .vnum 1)], .varr [.vinst "C" []], .vnum 7] : List Value).getD 1 .vnull with
           | .vinst _ attrs => .vobj (rawFields attrs)
           | .varr xs => .varr (collectionToRaw xs)
           | v => v) :=
  ⟨(claim6_collection_to_raw _).1,
   (claim6_collection_to_raw _).2.1 1 (by simp)⟩

theorem parseFields_total_mem (env : Env) (tname : String) :
    ∀ (fields : List (String × Value)),
      (∀ kv ∈ fields,
        (applyCtor env (getSubresourceConstructor (env.subsOf tname) kv.1) kv.2).isOk
          = true) →
      ∃ attrs, parseFields env tname fields = .ok attrs
        ∧ ∀ key value, (key, value) ∈ fields →
            getSubresourceConstructor (env.subsOf tname) key = .identity →
            (key, value) ∈ attrs := by
  intro fields
  induction fields with
  | nil => intro _; exact ⟨[], rfl, by simp⟩
  | cons kv rest ih =>
      obtain ⟨key, value⟩ := kv
      intro hok
      obtain ⟨attrs, hattrs, hmem⟩ := ih (fun kv hkv => hok kv (List.mem_cons_of_mem _ hkv))
      have hhd := hok (key, value) (List.mem_cons_self _ _)
      cases hc : applyCtor env (getSubresourceConstructor (env.subsOf tname) key) value with
      | error e => rw [hc] at hhd; simp [Except.isOk, Except.toBool] at hhd
      | ok parsed =>
          refine ⟨(key, parsed) :: attrs, ?_, ?_⟩
          · rw [parseFields_cons, hc, okBind, hattrs, okBind]; rfl
          · intro k v hkv hid
            rcases List.mem_cons.mp hkv with heq | htl
            · injection heq with hk hv
              subst hk; subst hv
              rw [hid] at hc
              simp only [applyCtor, trivialConstructor] at hc
              obtain rfl := Except.ok.inj hc
              exact List.mem_cons_self _ _
            · exact List.mem_cons_of_mem _ (hmem k v htl hid)

/-- C4: a key of the input mapping that is not declared in the resolved
`sub_resources` dict resolves to the identity constructor, and (when
the declared fields' constructor applications succeed) parsing neither
raises nor drops the key: the resulting instance carries the raw value
of that key unchanged. -/
theorem claim4_undeclared_field_tolerance (env : Env) (tname : String)
    (key : String) (value : Value) (fields : List (String × Value))
    (hmem : (key, value) ∈ fields)
    (hundecl : ∀ kv ∈ env.subsOf tname, kv.1 ≠ key)
    (hok : ∀ kv ∈ fields,
      (applyCtor env (getSubresourceConstructor (env.subsOf tname) kv.1) kv.2).isOk
        = true) :
    getSubresourceConstructor (env.subsOf tname) key = .identity
    ∧ ∃ attrs, parse env tname (.vobj fields) = .ok (.vinst tname attrs)
        ∧ (key, value) ∈ attrs := by
  have hid : getSubresourceConstructor (env.subsOf tname) key = .identity := by
    unfold getSubresourceConstructor
    have : (env.subsOf tname).find? (fun kv => kv.1 == key) = none := by
      apply List.find?_eq_none.mpr
      intro kv hkv
      simpa using hundecl kv hkv
    rw [this]
  obtain ⟨attrs, hattrs, hmem2⟩ := parseFields_total_mem env tname fields hok
  exact ⟨hid, attrs, by rw [parse_vobj, hattrs, mapOk], hmem2 key value hmem hid⟩

/-- Witness for C4: parsing a mapping with the undeclared key `extra`
holding a non-JSON blob preserves the pair verbatim. -/
theorem claim4_witness :
    getSubresourceConstructor (sampleEnv.subsOf "T") "extra" = .identity
    ∧ ∃ attrs, parse sampleEnv "T" (.vobj [("child", .vobj []), ("extra", .vblob 5)])
        = .ok (.vinst "T" attrs)
        ∧ (("extra" : String), Value.vblob 5) ∈ attrs :=
  claim4_undeclared_field_tolerance sampleEnv "T" "extra" (.vblob 5)
    [("child", .vobj []), ("extra", .vblob 5)]
    (by simp) (by decide) (by decide)

/-- C10: for a non-empty keyword-argument mapping, the constructor call
`T(**m)` is an entry point equivalent to `T.parse(m)`: when `parse`
yields an instance the constructed object carries exactly the same
attribute list, and when `parse` raises the constructor raises the same
error. -/
theorem claim10_kwargs_constructor_equiv (env : Env) (tname : String)
    (kwargs : List (String × Value)) (hne : kwargs ≠ []) :
    (∀ r, parse env tname (.vobj kwargs) = .ok r →
        ∃ attrs, r = .vinst tname attrs ∧ initKwargs env tname kwargs = .ok attrs)
    ∧ (∀ e, parse env tname (.vobj kwargs) = .error e →
        initKwargs env tname kwargs = .error e) := by
  have hempty : kwargs.isEmpty = false := by
    cases kwargs with
    | nil => exact absurd rfl hne
    | cons kv rest => rfl
  constructor
  · intro r hr
    rw [parse_vobj] at hr
    cases hf : parseFields env tname kwargs with
    | error e => rw [hf, mapErr] at hr; exact absurd hr (by simp)
    | ok attrs =>
        rw [hf, mapOk] at hr
        refine ⟨attrs, (Except.ok.inj hr).symm, ?_⟩
        unfold initKwargs
        rw [hempty, if_neg (by simp), parse_vobj, hf, mapOk]
        rfl
  · intro e he
    unfold initKwargs
    rw [hempty, if_neg (by simp), he]
    rfl

/-- Witness for C10 at a concrete one-field keyword mapping. -/
theorem claim10_witness :
    ∃ attrs, Value.vinst "T" [(("a" : String), Value.vnum 1)] = .vinst "T" attrs
      ∧ initKwargs sampleEnv "T" [("a", .vnum 1)] = .ok attrs :=
  (claim10_kwargs_constructor_equiv sampleEnv "T" [("a", .vnum 1)] (by simp)).1
    (.vinst "T" [("a", .vnum 1)]) (by rfl)

theorem identity_raw_bundle : ∀ (n : Nat),
    (∀ v : Value, sizeOf v ≤ n → isJsonLike v = true →
      rawAttr v = v ∧ collectionItemToRaw v = v)
    ∧ (∀ elems : List Value, sizeOf elems ≤ n → isJsonLikeList elems = true →
      collectionToRaw elems = elems) := by
  intro n
  induction n using Nat.strong_induction_on with
  | _ n ih =>
    constructor
    · intro v hsize hjson
      cases v with
      | vnull => exact ⟨rfl, rfl⟩
      | vbool b => exact ⟨rfl, rfl⟩
      | vnum m => exact ⟨rfl, rfl⟩
      | vstr s => exact ⟨rfl, rfl⟩
      | vobj fields => exact ⟨rfl, rfl⟩
      | varr elems =>
          have hlt : sizeOf elems < n := by
            have : sizeOf elems < sizeOf (Value.varr elems) := by
              simp only [Value.varr.sizeOf_spec]; omega
            omega
          have hthis := (ih (sizeOf elems) hlt).2 elems (le_refl _)
            (by simpa [isJsonLike] using hjson)
          constructor <;> simp [rawAttr, collectionItemToRaw, hthis]
      | vinst t attrs => simp [isJsonLike] at hjson
      | venum m => simp [isJsonLike] at hjson
      | vblob i => simp [isJsonLike] at hjson
    · intro elems hsize hjson
      cases elems with
      | nil => rfl
      | cons item rest =>
          simp only [isJsonLikeList, Bool.and_eq_true] at hjson
          have h1 : sizeOf item < n := by
            have : sizeOf item < sizeOf (item :: rest) := by
              simp only [List.cons.sizeOf_spec]; omega
            omega
          have h2 : sizeOf rest < n := by
            have : sizeOf rest < sizeOf (item :: rest) := by
              simp only [List.cons.sizeOf_spec]; omega
            omega
          have hhd := ((ih (sizeOf item) h1).1 item (le_refl _) hjson.1).2
          have htl := (ih (sizeOf rest) h2).2 rest (le_refl _) hjson.2
          simp only [collectionToRaw, hhd, htl]

theorem rawAttr_of_jsonLike (v : Value) (h : isJsonLike v = true) :
    rawAttr v = v ∧ collectionItemToRaw v = v :=
  (identity_raw_bundle (sizeOf v)).1 v (le_refl _) h

theorem roundtrip_bundle : ∀ (n : Nat),
    (∀ (env : Env) (tname : String) (v : Value), sizeOf v ≤ n →
      conforms env tname v = true →
      ∃ r, parse env tname v = .ok r ∧ rawAttr r = v ∧ collectionItemToRaw r = v)
    ∧ (∀ (env : Env) (tname : String) (elems : List Value), sizeOf elems ≤ n →
      conformsList env tname elems = true →
      ∃ rs, parseList env tname elems = .ok rs ∧ collectionToRaw rs = elems)
    ∧ (∀ (env : Env) (tname : String) (fields : List (String × Value)), sizeOf fields ≤ n →
      conformsFields env tname fields = true →
      ∃ attrs, parseFields env tname fields = .ok attrs ∧ rawFields attrs = fields) := by
  intro n
  induction n using Nat.strong_induction_on with
  | _ n ih =>
    refine ⟨?_, ?_, ?_⟩
    · intro env tname v hsize hconf
      cases v with
      | vnull => exact ⟨.vnull, rfl, rfl, rfl⟩
      | vbool b => exact ⟨.vbool b, rfl, rfl, rfl⟩
      | vnum m => exact ⟨.vnum m, rfl, rfl, rfl⟩
      | vstr s => exact ⟨.vstr s, rfl, rfl, rfl⟩
      | varr elems =>
          have hlt : sizeOf elems < n := by
            have : sizeOf elems < sizeOf (Value.varr elems) := by
              simp only [Value.varr.sizeOf_spec]; omega
            omega
          obtain ⟨rs, hrs, hraw⟩ := (ih (sizeOf elems) hlt).2.1 env tname elems (le_refl _)
            (by simpa [conforms] using hconf)
          refine ⟨.varr rs, ?_, ?_, ?_⟩
          · simp only [parse, hrs, okBind]; rfl
          · simp only [rawAttr, hraw]
          · simp only [collectionItemToRaw, hraw]
      | vobj fields =>
          have hlt : sizeOf fields < n := by
            have : sizeOf fields < sizeOf (Value.vobj fields) := by
              simp only [Value.vobj.sizeOf_spec]; omega
            omega
          simp only [conforms, Bool.and_eq_true] at hconf
          obtain ⟨attrs, hattrs, hraw⟩ := (ih (sizeOf fields) hlt).2.2 env tname fields
            (le_refl _) hconf.2
          refine ⟨.vinst tname attrs, ?_, ?_, ?_⟩
          · simp only [parse, hattrs, okBind]; rfl
          · simp only [rawAttr, hraw]
          · simp only [collectionItemToRaw, hraw]
      | vinst t attrs => simp [conforms] at hconf
      | venum m => simp [conforms] at hconf
      | vblob i => simp [conforms] at hconf
    · intro env tname elems hsize hconf
      cases elems with
      | nil => exact ⟨[], rfl, rfl⟩
      | cons item rest =>
          simp only [conformsList, Bool.and_eq_true] at hconf
          have h1 : sizeOf item < n := by
            have : sizeOf item < sizeOf (item :: rest) := by
              simp only [List.cons.sizeOf_spec]; omega
            omega
          have h2 : sizeOf rest < n := by
            have : sizeOf rest < sizeOf (item :: rest) := by
              simp only [List.cons.sizeOf_spec]; omega
            omega
          obtain ⟨r, hr, -, hitem⟩ := (ih (sizeOf item) h1).1 env tname item (le_refl _) hconf.1
          obtain ⟨rs, hrs, hrest⟩ := (ih (sizeOf rest) h2).2.1 env tname rest (le_refl _) hconf.2
          refine ⟨r :: rs, ?_, ?_⟩
          · simp only [parseList, hr, okBind, hrs]; rfl
          · simp only [collectionToRaw, hitem, hrest]
    · intro env tname fields hsize hconf
      cases fields with
      | nil => exact ⟨[], rfl, rfl⟩
      | cons kv rest =>
          obtain ⟨key, value⟩ := kv
          simp only [conformsFields] at hconf
          obtain ⟨hmatch, hrest⟩ := (Bool.and_eq_true _ _).mp hconf
          have h2 : sizeOf rest < n := by
            have : sizeOf rest < sizeOf ((key, value) :: rest) := by
              simp only [List.cons.sizeOf_spec]; omega
            omega
          obtain ⟨attrs, hattrs, hrawrest⟩ := (ih (sizeOf rest) h2).2.2 env tname rest
            (le_refl _) hrest
          have hvlt : sizeOf value < n := by
            have : sizeOf value < sizeOf ((key, value) :: rest) := by
              simp only [List.cons.sizeOf_spec, Prod.mk.sizeOf_spec]; omega
            omega
          cases hc : getSubresourceConstructor (env.subsOf tname) key with
          | identity =>
              simp only [hc, conformsCtor] at hmatch
              have hid := rawAttr_of_jsonLike value hmatch
              refine ⟨(key, value) :: attrs, ?_, ?_⟩
              · rw [parseFields_cons, hc]
                simp only [applyCtor, trivialConstructor, okBind, hattrs]; rfl
              · simp only [rawFields, hid.1, hrawrest]
          | parseOf t =>
              simp only [hc, conformsCtor] at hmatch
              obtain ⟨r, hr, hraw, -⟩ := (ih (sizeOf value) hvlt).1 env t value (le_refl _) hmatch
              refine ⟨(key, r) :: attrs, ?_, ?_⟩
              · rw [parseFields_cons, hc]
                simp only [applyCtor, hr, okBind, hattrs]; rfl
              · simp only [rawFields, hraw, hrawrest]
          | parseCollOf t =>
              simp only [hc] at hmatch
              cases value with
              | varr elems =>
                  simp only [conformsCtor] at hmatch
                  have helt : sizeOf elems < n := by
                    have : sizeOf elems < sizeOf ((key, Value.varr elems) :: rest) := by
                      simp only [List.cons.sizeOf_spec, Prod.mk.sizeOf_spec,
                        Value.varr.sizeOf_spec]
                      omega
                    omega
                  obtain ⟨rs, hrs, hrawlist⟩ := (ih (sizeOf elems) helt).2.1 env t elems
                    (le_refl _) hmatch
                  refine ⟨(key, .varr rs) :: attrs, ?_, ?_⟩
                  · rw [parseFields_cons, hc]
                    simp only [applyCtor, parseCollection, hrs, okBind, hattrs]; rfl
                  · simp only [rawFields, rawAttr, hrawlist, hrawrest]
              | vnull => simp [conformsCtor] at hmatch
              | vbool b => simp [conformsCtor] at hmatch
              | vnum m => simp [conformsCtor] at hmatch
              | vstr s => simp [conformsCtor] at hmatch
              | vobj f => simp [conformsCtor] at hmatch
              | vinst t2 a2 => simp [conformsCtor] at hmatch
              | venum m => simp [conformsCtor] at hmatch
              | vblob i => simp [conformsCtor] at hmatch

/-- C1 (round-trip law): for a JSON-like mapping whose nested shapes
conform to the type's declared sub-constructors, parsing yields an
instance of that type whose `raw` serialization is the original
mapping, with mapping keys and sequence elements in their original
order. -/
theorem claim1_roundtrip_law (env : Env) (tname : String)
    (fields : List (String × Value))
    (h : conforms env tname (.vobj fields) = true) :
    ∃ attrs, parse env tname (.vobj fields) = .ok (.vinst tname attrs)
      ∧ raw (.vinst tname attrs) = some (.vobj fields) := by
  obtain ⟨r, hr, hraw, -⟩ :=
    (roundtrip_bundle (sizeOf (Value.vobj fields))).1 env tname _ (le_refl _) h
  rw [parse_vobj] at hr
  cases hf : parseFields env tname fields with
  | error e => rw [hf, mapErr] at hr; exact Except.noConfusion hr
  | ok attrs =>
      rw [hf, mapOk] at hr
      obtain rfl := Except.ok.inj hr
      refine ⟨attrs, by rw [parse_vobj, hf, mapOk], ?_⟩
      simp only [rawAttr] at hraw
      simp only [raw, hraw]

/-- Witness for C1 at a concrete nested mapping: a primitive field, an
undeclared-constructor-free sub-resource field, and a collection
field. -/
theorem claim1_witness :
    ∃ attrs,
      parse sampleEnv "T" (.vobj [("a", .vnum 1),
          ("child", .vobj [("x", .vbool true)]),
          ("kids", .varr [.vobj [("y", .vnull)], .vobj []])])
        = .ok (.vinst "T" attrs)
      ∧ raw (.vinst "T" attrs)
        = some (.vobj [("a", .vnum 1),
            ("child", .vobj [("x", .vbool true)]),
            ("kids", .varr [.vobj [("y", .vnull)], .vobj []])]) :=
  claim1_roundtrip_law sampleEnv "T"
    [("a", .vnum 1), ("child", .vobj [("x", .vbool true)]),
     ("kids", .varr [.vobj [("y", .vnull)], .vobj []])]
    (by simp [conforms, conformsList, conformsFields, conformsCtor, keysNodup,
      isJsonLike, isJsonLikeList, isJsonLikeFields, getSubresourceConstructor,
      sampleEnv, Env.subsOf, Env.typeDef])

theorem no_typeconstraint_bundle : ∀ (n : Nat),
    (∀ (env : Env) (tname : String) (v : Value), sizeOf v ≤ n →
      isJsonLike v = true → parse env tname v ≠ .error .typeConstraint)
    ∧ (∀ (env : Env) (tname : String) (elems : List Value), sizeOf elems ≤ n →
      isJsonLikeList elems = true → parseList env tname elems ≠ .error .typeConstraint)
    ∧ (∀ (env : Env) (tname : String) (fields : List (String × Value)), sizeOf fields ≤ n →
      isJsonLikeFields fields = true → parseFields env tname fields ≠ .error .typeConstraint)
    ∧ (∀ (env : Env) (tname : String) (v : Value), sizeOf v ≤ n →
      isJsonLike v = true → parseCollection env tname v ≠ .error .typeConstraint) := by
  intro n
  induction n using Nat.strong_induction_on with
  | _ n ih =>
    refine ⟨?_, ?_, ?_, ?_⟩
    · intro env tname v hsize hjson
      cases v with
      | vnull => simp [parse]
      | vbool b => simp [parse]
      | vnum m => simp [parse]
      | vstr s => simp [parse]
      | varr elems =>
          have hlt : sizeOf elems < n := by
            have : sizeOf elems < sizeOf (Value.varr elems) := by
              simp only [Value.varr.sizeOf_spec]; omega
            omega
          have hlist := (ih (sizeOf elems) hlt).2.1 env tname elems (le_refl _)
            (by simpa [isJsonLike] using hjson)
          intro hcontra
          cases hpl : parseList env tname elems with
          | error e =>
              simp only [parse, hpl, errBind] at hcontra
              obtain rfl := Except.error.inj hcontra
              exact hlist hpl
          | ok rs =>
              simp only [parse, hpl, okBind] at hcontra
              exact Except.noConfusion hcontra
      | vobj fields =>
          have hlt : sizeOf fields < n := by
            have : sizeOf fields < sizeOf (Value.vobj fields) := by
              simp only [Value.vobj.sizeOf_spec]; omega
            omega
          have hjson2 : isJsonLikeFields fields = true := by
            simp only [isJsonLike, Bool.and_eq_true] at hjson
            exact hjson.2
          have hfields := (ih (sizeOf fields) hlt).2.2.1 env tname fields (le_refl _) hjson2
          intro hcontra
          cases hpf : parseFields env tname fields with
          | error e =>
              simp only [parse, hpf, errBind] at hcontra
              obtain rfl := Except.error.inj hcontra
              exact hfields hpf
          | ok attrs =>
              simp only [parse, hpf, okBind] at hcontra
              exact Except.noConfusion hcontra
      | vinst t attrs => simp [isJsonLike] at hjson
      | venum m => simp [isJsonLike] at hjson
      | vblob i => simp [isJsonLike] at hjson
    · intro env tname elems hsize hjson
      cases elems with
      | nil => simp [parseList]
      | cons item rest =>
          simp only [isJsonLikeList, Bool.and_eq_true] at hjson
          have h1 : sizeOf item < n := by
            have : sizeOf item < sizeOf (item :: rest) := by
              simp only [List.cons.sizeOf_spec]; omega
            omega
          have h2 : sizeOf rest < n := by
            have : sizeOf rest < sizeOf (item :: rest) := by
              simp only [List.cons.sizeOf_spec]; omega
            omega
          have hhd := (ih (sizeOf item) h1).1 env tname item (le_refl _) hjson.1
          have htl := (ih (sizeOf rest) h2).2.1 env tname rest (le_refl _) hjson.2
          intro hcontra
          cases hp : parse env tname item with
          | error e =>
              simp only [parseList, hp, errBind] at hcontra
              obtain rfl := Except.error.inj hcontra
              exact hhd hp
          | ok r =>
              cases hpl : parseList env tname rest with
              | error e =>
                  simp only [parseList, hp, hpl, okBind, errBind] at hcontra
                  obtain rfl := Except.error.inj hcontra
                  exact htl hpl
              | ok rs =>
                  simp only [parseList, hp, hpl, okBind] at hcontra
                  exact Except.noConfusion hcontra
    · intro env tname fields hsize hjson
      cases fields with
      | nil => simp [parseFields]
      | cons kv rest =>
          obtain ⟨key, value⟩ := kv
          simp only [isJsonLikeFields, Bool.and_eq_true] at hjson
          have h2 : sizeOf rest < n := by
            have : sizeOf rest < sizeOf ((key, value) :: rest) := by
              simp only [List.cons.sizeOf_spec]; omega
            omega
          have hvlt : sizeOf value < n := by
            have : sizeOf value < sizeOf ((key, value) :: rest) := by
              simp only [List.cons.sizeOf_spec, Prod.mk.sizeOf_spec]; omega
            omega
          have hrest := (ih (sizeOf rest) h2).2.2.1 env tname rest (le_refl _) hjson.2
          intro hcontra
          rw [parseFields_cons] at hcontra
          cases hac : applyCtor env (getSubresourceConstructor (env.subsOf tname) key) value with
          | error e =>
              rw [hac, errBind] at hcontra
              obtain rfl := Except.error.inj hcontra
              cases hc : getSubresourceConstructor (env.subsOf tname) key with
              | identity => rw [hc] at hac; simp [applyCtor] at hac
              | parseOf t =>
                  rw [hc] at hac
                  simp only [applyCtor] at hac
                  exact (ih (sizeOf value) hvlt).1 env t value (le_refl _) hjson.1 hac
              | parseCollOf t =>
                  rw [hc] at hac
                  simp only [applyCtor] at hac
                  exact (ih (sizeOf value) hvlt).2.2.2 env t value (le_refl _) hjson.1 hac
          | ok parsed =>
              rw [hac, okBind] at hcontra
              cases hpf : parseFields env tname rest with
              | error e =>
                  rw [hpf, errBind] at hcontra
                  obtain rfl := Except.error.inj hcontra
                  exact hrest hpf
              | ok tl =>
                  rw [hpf, okBind] at hcontra
                  exact Except.noConfusion hcontra
    · intro env tname v hsize hjson
      cases v with
      | varr elems =>
          have hlt : sizeOf elems < n := by
            have : sizeOf elems < sizeOf (Value.varr elems) := by
              simp only [Value.varr.sizeOf_spec]; omega
            omega
          have hlist := (ih (sizeOf elems) hlt).2.1 env tname elems (le_refl _)
            (by simpa [isJsonLike] using hjson)
          intro hcontra
          cases hpl : parseList env tname elems with
          | error e =>
              simp only [parseCollection, hpl, errBind] at hcontra
              obtain rfl := Except.error.inj hcontra
              exact hlist hpl
          | ok rs =>
              simp only [parseCollection, hpl, okBind] at hcontra
              exact Except.noConfusion hcontra
      | vstr s => simp [parseCollection]
      | vobj fields => simp [parseCollection]
      | vnull => intro hcontra; exact absurd (Except.error.inj hcontra) (by decide)
      | vbool b => intro hcontra; exact absurd (Except.error.inj hcontra) (by decide)
      | vnum m => intro hcontra; exact absurd (Except.error.inj hcontra) (by decide)
      | vinst t attrs => simp [isJsonLike] at hjson
      | venum m => simp [isJsonLike] at hjson
      | vblob i => simp [isJsonLike] at hjson

/-- C3 counterexample: a sequence containing a non-JSON object is
itself one of the six permitted shapes, yet `parse` raises the
type-constraint error (on the element, while recursing); so the
claimed equivalence "raises iff the argument is not a permitted shape"
fails in the only-if direction. -/
theorem claim3_counterexample :
    isPermittedShape (.varr [.vblob 0]) = true
    ∧ parse sampleEnv "T" (.varr [.vblob 0]) = .error .typeConstraint :=
  ⟨rfl, rfl⟩

/-- C3 amended: `parse` raises the type-constraint error on every value
outside the six permitted shapes, and never raises it on a recursively
JSON-like value; but the raise is not limited to the top level — a
permitted-shape sequence with a non-JSON element raises too (see the
counterexample) — so only these two directions hold, not the original
iff. -/
theorem claim3_type_rejection (env : Env) (tname : String) (v w : Value)
    (hv : isPermittedShape v = false) (hw : isJsonLike w = true) :
    parse env tname v = .error .typeConstraint
    ∧ parse env tname w ≠ .error .typeConstraint := by
  constructor
  · cases v with
    | vinst t attrs => rfl
    | venum m => rfl
    | vblob i => rfl
    | vnull => simp [isPermittedShape] at hv
    | vbool b => simp [isPermittedShape] at hv
    | vnum m => simp [isPermittedShape] at hv
    | vstr s => simp [isPermittedShape] at hv
    | varr elems => simp [isPermittedShape] at hv
    | vobj fields => simp [isPermittedShape] at hv
  · exact (no_typeconstraint_bundle (sizeOf w)).1 env tname w (le_refl _) hw

/-- Witness for C3's amended statement: a non-JSON blob raises the
type-constraint error, while a JSON-like mapping with a nested list
does not. -/
theorem claim3_witness :
    parse sampleEnv "T" (.vblob 0) = .error .typeConstraint
    ∧ parse sampleEnv "T" (.vobj [("a", .varr [.vnum 1])]) ≠ .error .typeConstraint :=
  claim3_type_rejection sampleEnv "T" (.vblob 0) (.vobj [("a", .varr [.vnum 1])])
    (by rfl) (by rfl)

theorem getSub_map_overwrite_ne (key k : String) (c : Ctor) (hne : ¬ k = key) :
    ∀ (subs : List (String × Ctor)),
      getSubresourceConstructor
          (subs.map (fun kv => if kv.1 == key then (kv.1, c) else kv)) k
        = getSubresourceConstructor subs k := by
  have hnk : ¬ key = k := fun h => hne h.symm
  intro subs
  induction subs with
  | nil => rfl
  | cons kv rest ih =>
      obtain ⟨k2, v⟩ := kv
      by_cases hk2 : k2 = key
      · have hf : (k2 == k) = false := by simp [hk2]; exact hnk
        simp only [List.map_cons, if_pos (by simp [hk2] : ((k2, v).1 == key) = true)]
        simp [getSubresourceConstructor, List.find?, hf] at ih ⊢
        exact ih
      · simp only [List.map_cons, if_neg (by simp [hk2] : ¬ ((k2, v).1 == key) = true)]
        cases hki : (k2 == k) with
        | true => simp [getSubresourceConstructor, List.find?, hki]
        | false =>
            simp [getSubresourceConstructor, List.find?, hki] at ih ⊢
            exact ih

theorem getSub_map_overwrite_self (key : String) (c : Ctor) :
    ∀ (subs : List (String × Ctor)), subs.any (fun kv => kv.1 == key) = true →
      getSubresourceConstructor
          (subs.map (fun kv => if kv.1 == key then (kv.1, c) else kv)) key = c := by
  intro subs
  induction subs with
  | nil => intro h; simp at h
  | cons kv rest ih =>
      obtain ⟨k2, v⟩ := kv
      intro h
      by_cases hk2 : k2 = key
      · simp only [List.map_cons, if_pos (by simp [hk2] : ((k2, v).1 == key) = true)]
        simp [getSubresourceConstructor, List.find?, hk2]
      · simp only [List.any_cons, Bool.or_eq_true] at h
        rcases h with h | h
        · exact absurd (by simpa using h) hk2
        · have ih2 := ih h
          simp only [List.map_cons, if_neg (by simp [hk2] : ¬ ((k2, v).1 == key) = true)]
          have hf : (k2 == key) = false := by simp [hk2]
          simp [getSubresourceConstructor, List.find?, hf] at ih2 ⊢
          exact ih2

theorem getSub_append_pair_self (key : String) (c : Ctor) :
    ∀ (subs : List (String × Ctor)), subs.any (fun kv => kv.1 == key) = false →
      getSubresourceConstructor (subs ++ [(key, c)]) key = c := by
  intro subs
  induction subs with
  | nil => intro _; simp [getSubresourceConstructor, List.find?]
  | cons kv rest ih =>
      intro h
      simp only [List.any_cons, Bool.or_eq_false_iff] at h
      have ih2 := ih h.2
      simp [getSubresourceConstructor, List.find?, h.1] at ih2 ⊢
      exact ih2

theorem getSub_append_pair_ne (key k : String) (c : Ctor) (hne : ¬ k = key) :
    ∀ (subs : List (String × Ctor)),
      getSubresourceConstructor (subs ++ [(key, c)]) k
        = getSubresourceConstructor subs k := by
  have hnk : (key == k) = false := by simp; exact fun h => hne h.symm
  intro subs
  induction subs with
  | nil => simp [getSubresourceConstructor, List.find?, hnk]
  | cons kv rest ih =>
      cases hbe : (kv.1 == k) with
      | true => simp [getSubresourceConstructor, List.find?, hbe]
      | false =>
          simp [getSubresourceConstructor, List.find?, hbe] at ih ⊢
          exact ih

theorem getSub_setKey_self (subs : List (String × Ctor)) (key : String) (c : Ctor) :
    getSubresourceConstructor (setKey subs key c) key = c := by
  unfold setKey
  cases hb : subs.any (fun kv => kv.1 == key) with
  | true => simpa using getSub_map_overwrite_self key c subs hb
  | false => simpa using getSub_append_pair_self key c subs hb

theorem getSub_setKey_ne (subs : List (String × Ctor)) (key k : String) (c : Ctor)
    (hne : ¬ k = key) :
    getSubresourceConstructor (setKey subs key c) k
      = getSubresourceConstructor subs k := by
  unfold setKey
  cases hb : subs.any (fun kv => kv.1 == key) with
  | true => simpa using getSub_map_overwrite_ne key k c hne subs
  | false => simpa using getSub_append_pair_ne key k c hne subs

theorem getSub_registerAll_notmem (name : String) :
    ∀ (anns : List (String × Ann)) (subs : List (String × Ctor)),
      (∀ a ∈ anns, a.1 ≠ name) →
      getSubresourceConstructor (registerAll subs anns) name
        = getSubresourceConstructor subs name := by
  intro anns
  induction anns with
  | nil => intro subs _; rfl
  | cons a rest ih =>
      obtain ⟨aname, ann⟩ := a
      intro subs hno
      have hne : aname ≠ name := hno (aname, ann) (List.mem_cons_self _ _)
      cases hc : annCtor ann with
      | none =>
          simp only [registerAll, hc]
          exact ih _ (fun x hx => hno x (List.mem_cons_of_mem _ hx))
      | some c =>
          simp only [registerAll, hc]
          rw [ih _ (fun x hx => hno x (List.mem_cons_of_mem _ hx))]
          exact getSub_setKey_ne subs aname name c (fun h => hne h.symm)

theorem getSub_registerAll_mem (name : String) (ann : Ann) :
    ∀ (anns : List (String × Ann)) (subs : List (String × Ctor)),
      (anns.map Prod.fst).Nodup → (name, ann) ∈ anns →
      getSubresourceConstructor (registerAll subs anns) name
        = (match annCtor ann with
           | some c => c
           | none => getSubresourceConstructor subs name) := by
  intro anns
  induction anns with
  | nil => intro subs _ hmem; exact absurd hmem (List.not_mem_nil _)
  | cons a rest ih =>
      obtain ⟨aname, ann2⟩ := a
      intro subs hnodup hmem
      simp only [List.map_cons, List.nodup_cons] at hnodup
      rcases List.mem_cons.mp hmem with heq | htl
      · injection heq with h1 h2
        subst h1; subst h2
        have hno : ∀ x ∈ rest, x.1 ≠ name := by
          intro x hx hxe
          exact hnodup.1 (hxe ▸ List.mem_map_of_mem Prod.fst hx)
        cases hc : annCtor ann with
        | none =>
            simp only [registerAll, hc]
            exact getSub_registerAll_notmem name rest subs hno
        | some c =>
            simp only [registerAll, hc]
            rw [getSub_registerAll_notmem name rest _ hno]
            exact getSub_setKey_self subs name c
      · have hne : aname ≠ name := by
          intro he
          exact hnodup.1 (he ▸ List.mem_map_of_mem Prod.fst htl)
        cases hc : annCtor ann2 with
        | none => simp only [registerAll, hc]; exact ih _ hnodup.2 htl
        | some c =>
            simp only [registerAll, hc]
            rw [ih _ hnodup.2 htl]
            cases annCtor ann with
            | some c2 => rfl
            | none => exact getSub_setKey_ne subs aname name c (fun h => hne h.symm)

theorem find?_map_setOwn (tname : String) (subs : List (String × Ctor)) :
    ∀ (types : List (String × TypeDef)),
      (types.map (fun td =>
          if td.1 == tname then (td.1, (⟨some subs, td.2.anns⟩ : TypeDef)) else td)).find?
          (fun td => td.1 == tname)
        = (types.find? (fun td => td.1 == tname)).map
            (fun td => (td.1, (⟨some subs, td.2.anns⟩ : TypeDef))) := by
  intro types
  induction types with
  | nil => rfl
  | cons td rest ih =>
      cases h : (td.1 == tname) with
      | true => simp [List.find?, h]
      | false => simpa [List.find?, h] using ih

theorem typeDef_setOwnSubs_found (env : Env) (tname : String)
    (subs : List (String × Ctor)) (td : String × TypeDef)
    (hfind : env.types.find? (fun td => td.1 == tname) = some td) :
    (env.setOwnSubs tname subs).typeDef tname = ⟨some subs, td.2.anns⟩ := by
  unfold Env.typeDef Env.setOwnSubs
  rw [find?_map_setOwn, hfind]
  rfl

theorem subsOf_fromAnnotations (env : Env) (tname : String) :
    (fromAnnotations env tname).subsOf tname
      = registerAll (env.subsOf tname) (env.typeDef tname).anns := by
  cases hfind : env.types.find? (fun td => td.1 == tname) with
  | none =>
      have htd : env.typeDef tname = ⟨none, []⟩ := by
        simp [Env.typeDef, hfind]
      simp [fromAnnotations, htd, Env.subsOf, Env.typeDef, hfind]
  | some td =>
      have htd : env.typeDef tname = td.2 := by
        simp [Env.typeDef, hfind]
      cases hown : td.2.ownSubs with
      | none =>
          simp [fromAnnotations, htd, hown, Env.subsOf, Env.typeDef, hfind]
      | some own =>
          have h2 := typeDef_setOwnSubs_found env tname (registerAll own td.2.anns) td hfind
          simp only [fromAnnotations, htd, hown]
          unfold Env.subsOf
          rw [h2, htd, hown]

/-- C7 counterexample: for a field annotated `List[R]`,
`from_annotations` stores the single-item parser `R.parse`
(line `cls.sub_resources[name] = field_type.__args__[0].parse`), which
is a different constructor from the collection-parser
`R.parse_collection` that the claim names. -/
theorem claim7_counterexample :
    getSubresourceConstructor ((fromAnnotations annEnv "T").subsOf "T") "f"
      = .parseOf "R"
    ∧ Ctor.parseOf "R" ≠ Ctor.parseCollOf "R" :=
  ⟨rfl, by decide⟩

/-- C7 amended: annotation-inference rule 3 registers the element
type's single-item parser `parse` for a `List[R]` field — not
`parse_collection` — and, since `parse` delegates every sequence to
`parse_collection`, the registered constructor agrees with the
collection-parser on every sequence value. -/
theorem claim7_rule3_registers_parse (env : Env) (tname name r : String)
    (hann : (name, Ann.listRes r) ∈ (env.typeDef tname).anns)
    (hnodup : ((env.typeDef tname).anns.map Prod.fst).Nodup) :
    getSubresourceConstructor ((fromAnnotations env tname).subsOf tname) name
      = .parseOf r
    ∧ ∀ (env2 : Env) (elems : List Value),
        applyCtor env2 (.parseOf r) (.varr elems)
          = applyCtor env2 (.parseCollOf r) (.varr elems) := by
  constructor
  · rw [subsOf_fromAnnotations,
      getSub_registerAll_mem name (Ann.listRes r) (env.typeDef tname).anns
        (env.subsOf tname) hnodup hann]
    rfl
  · intro env2 elems
    simp only [applyCtor]
    rw [parse_varr, parseCollection_varr]

/-- Witness for C7's amended statement at the concrete environment
`annEnv`. -/
theorem claim7_witness :
    getSubresourceConstructor ((fromAnnotations annEnv "T").subsOf "T") "f"
      = .parseOf "R"
    ∧ applyCtor annEnv (.parseOf "R") (.varr [.vobj []])
        = applyCtor annEnv (.parseCollOf "R") (.varr [.vobj []]) :=
  ⟨(claim7_rule3_registers_parse annEnv "T" "f" "R" (by decide) (by decide)).1,
   (claim7_rule3_registers_parse annEnv "T" "f" "R" (by decide) (by decide)).2
     annEnv [.vobj []]⟩

/-- C8: a field annotated with an optional primitive is caught by the
second inference branch (an `Optional[p]` object is an instance of
`type(List[Any])` with a primitive first type argument), so
`from_annotations` registers nothing for it: the constructor the
resolver returns for the field is unchanged, and — when the field had
no explicit constructor — it is the identity, so the field's attribute
on a parsed mapping is the raw value unchanged, exactly as with no
registration. -/
theorem claim8_optional_primitive (env : Env) (tname name : String) (p : PrimTy)
    (hann : (name, Ann.optPrim p) ∈ (env.typeDef tname).anns)
    (hnodup : ((env.typeDef tname).anns.map Prod.fst).Nodup) :
    getSubresourceConstructor ((fromAnnotations env tname).subsOf tname) name
      = getSubresourceConstructor (env.subsOf tname) name
    ∧ (getSubresourceConstructor (env.subsOf tname) name = .identity →
        ∀ value, applyCtor (fromAnnotations env tname)
            (getSubresourceConstructor ((fromAnnotations env tname).subsOf tname) name)
            value
          = .ok value)
    ∧ (getSubresourceConstructor (env.subsOf tname) name = .identity →
        ∀ (fields : List (String × Value)) (value : Value),
          (name, value) ∈ fields →
          (∀ kv ∈ fields,
            (applyCtor (fromAnnotations env tname)
              (getSubresourceConstructor ((fromAnnotations env tname).subsOf tname) kv.1)
              kv.2).isOk = true) →
          ∃ attrs, parse (fromAnnotations env tname) tname (.vobj fields)
              = .ok (.vinst tname attrs)
            ∧ (name, value) ∈ attrs) := by
  have h1 : getSubresourceConstructor ((fromAnnotations env tname).subsOf tname) name
      = getSubresourceConstructor (env.subsOf tname) name := by
    rw [subsOf_fromAnnotations,
      getSub_registerAll_mem name (Ann.optPrim p) (env.typeDef tname).anns
        (env.subsOf tname) hnodup hann]
    rfl
  refine ⟨h1, fun hid value => by rw [h1, hid]; rfl, fun hid fields value hmem hok => ?_⟩
  obtain ⟨attrs, hattrs, hmem2⟩ :=
    parseFields_total_mem (fromAnnotations env tname) tname fields hok
  exact ⟨attrs, by rw [parse_vobj, hattrs, mapOk],
    hmem2 name value hmem (h1.trans hid)⟩

/-- Witness for C8 at the concrete environment `optEnv` (field `f`
annotated `Optional[int]`): the resolved constructor is unchanged, a
string value passes through without coercion to `int`, and a `None`
value is preserved as the parsed attribute. -/
theorem claim8_witness :
    getSubresourceConstructor ((fromAnnotations optEnv "T").subsOf "T") "f"
      = getSubresourceConstructor (optEnv.subsOf "T") "f"
    ∧ applyCtor (fromAnnotations optEnv "T")
        (getSubresourceConstructor ((fromAnnotations optEnv "T").subsOf "T") "f")
        (.vstr "5")
      = .ok (.vstr "5")
    ∧ ∃ attrs, parse (fromAnnotations optEnv "T") "T" (.vobj [("f", .vnull)])
        = .ok (.vinst "T" attrs)
      ∧ (("f" : String), Value.vnull) ∈ attrs :=
  ⟨(claim8_optional_primitive optEnv "T" "f" .pint (by decide) (by decide)).1,
   (claim8_optional_primitive optEnv "T" "f" .pint (by decide) (by decide)).2.1
     (by rfl) (.vstr "5"),
   (claim8_optional_primitive optEnv "T" "f" .pint (by decide) (by decide)).2.2
     (by rfl) [("f", .vnull)] .vnull (by simp) (by decide)⟩

/-- C9, evaluated at the failing input: `T1` declares no
`sub_resources` dict of its own, so `cls.sub_resources[name] = ...`
inside `from_annotations` mutates the base class `ApiObject`'s shared
dict; the unrelated type `T2` (which also inherits that dict) then
resolves the new constructor for key `f`, and its parsing behavior
changes — the claimed frame property fails on the code. -/
theorem claim9_frame_violation :
    getSubresourceConstructor ((fromAnnotations leakEnv "T1").subsOf "T2") "f"
      = .parseOf "R"
    ∧ getSubresourceConstructor (leakEnv.subsOf "T2") "f" = .identity
    ∧ parse (fromAnnotations leakEnv "T1") "T2" (.vobj [("f", .vobj [])])
        = .ok (.vinst "T2" [("f", .vinst "R" [])])
    ∧ parse leakEnv "T2" (.vobj [("f", .vobj [])])
        = .ok (.vinst "T2" [("f", .vobj [])])
    ∧ Value.vinst "R" [] ≠ Value.vobj [] :=
  ⟨rfl, rfl, rfl, rfl, fun h => Value.noConfusion h⟩

end Resourceez
